import Mathlib

/-!
Shallow embedding of the cyclic recursive product-accumulation engine of the
Plonky2-Playground repository: the chunked fold circuit built by
build_recursive_product_circuit (src/factorial/dynamic_size_product.rs), the
product subcircuit of src/factorial/static_size_product.rs, the terminal
compression circuit, and the driving prove/verify loop.

The constraint-circuit backend (polynomial commitments, FRI, hashing) is, per
the repository design, an external collaborator whose soundness and
completeness are assumed; the embedding models the wire values the circuit
computes, the constraints it imposes on them, and the witness-generation
workflow of RecursiveProdCircuitData::prove.  Fallible witness generation
(a range check or a random-access lookup with an out-of-range value makes
plonky2 proof generation fail) is modelled with Option.
-/

namespace RecursiveProd

/-- order of the Goldilocks base field underlying PoseidonGoldilocksConfig,
the BaseField of src/factorial/mod.rs. -/
def P : Nat := 2 ^ 64 - 2 ^ 32 + 1

/-- the base field of the circuits; every circuit signal carries one value of
this field. -/
abbrev F := ZMod P

instance : NeZero P := ⟨by norm_num [P]⟩

/-- bit width of the range check applied to remaining_factors_before_chunk
(source constant MAX_N_FACTORS_BITS). -/
def MAX_N_FACTORS_BITS : Nat := 32

/-- base-2 logarithm of the chunk size (source constant CHUNK_SIZE_LOG). -/
def CHUNK_SIZE_LOG : Nat := 5

/-- chunk size K; the source computes it as 1 <<< CHUNK_SIZE_LOG. -/
def CHUNK_SIZE : Nat := 2 ^ CHUNK_SIZE_LOG

/-- values pushed by the loop of build_prod_subcircuit
(static_size_product.rs lines 28-41) after the initial 1 has been pushed:
given the running product and the next factor, iterating k times multiplies
the product by the factor, pushes it, and increments the factor.  The result
collects the pushed values together with the final running product and the
final next factor. -/
def prodSubLoop (product next_factor : F) : Nat → List F × F × F
  | 0 => ([], product, next_factor)
  | k + 1 =>
    let product2 := product * next_factor
    let next2 := next_factor + 1
    let rest := prodSubLoop product2 next2 k
    (product2 :: rest.1, rest.2.1, rest.2.2)

/-- value-level semantics of build_prod_subcircuit
(static_size_product.rs lines 23-42): push 1, loop n_factors - 1 times,
then push one final product.  For n_factors = 0 the Rust source underflows
usize in debug builds; the claims only concern n_factors >= 1. -/
def build_prod_subcircuit (first_factor : F) (n_factors : Nat) : List F :=
  let product : F := 1
  let rest := prodSubLoop product first_factor (n_factors - 1)
  product :: (rest.1 ++ [rest.2.1 * rest.2.2])

/-- mathematical product of m consecutive field values starting at b:
consecProd b m = b * (b+1) * ... * (b+m-1), empty product 1. -/
def consecProd (b : F) : Nat → F
  | 0 => 1
  | m + 1 => consecProd b m * (b + (m : F))

/-- the seven public-input slots of a chunk proof (the fields of the
public_inputs_vector of build_recursive_product_circuit, lines 310-318). -/
inductive PITag where
  | n_factors
  | remaining_before
  | remaining_after
  | first_factor_before
  | first_factor_after
  | product_before
  | product_after
deriving DecidableEq

/-- registration order of the chunk public inputs: the source registers
public_inputs_vector = [n_factors, remaining_factors_before_chunk,
remaining_factors_after_chunk, first_chunk_factor, first_factor_after_chunk,
product_before_chunk, product_after_chunk] in one go (lines 310-319). -/
def public_inputs_vector : List PITag :=
  [.n_factors, .remaining_before, .remaining_after,
   .first_factor_before, .first_factor_after,
   .product_before, .product_after]

/-- position of a target in the vector of registered public inputs
(source helper find_public_input_idx, lines 398-405: enumerate and take the
first index whose target matches). -/
def find_public_input_idx (v : List PITag) (t : PITag) : Nat :=
  v.findIdx fun s => decide (s = t)

/-- index of remaining_factors_after_chunk among the chunk public inputs
(field remaining_factors_public_input_idx of RecursiveProdCircuitData). -/
def remaining_factors_public_input_idx : Nat :=
  find_public_input_idx public_inputs_vector .remaining_after

/-- index of n_factors among the chunk public inputs. -/
def n_factors_public_input_idx : Nat :=
  find_public_input_idx public_inputs_vector .n_factors

/-- index of product_after_chunk among the chunk public inputs. -/
def product_after_chunk_public_input_idx : Nat :=
  find_public_input_idx public_inputs_vector .product_after

/-- index of first_factor_after_chunk among the chunk public inputs. -/
def first_factor_after_chunk_public_input_idx : Nat :=
  find_public_input_idx public_inputs_vector .first_factor_after

/-- public record of one chunk proof: the values of the seven registered
public-input targets (the ChunkPublicRecord of the specification). -/
structure ChunkRecord where
  n_factors : F
  remaining_before : F
  remaining_after : F
  first_factor_before : F
  first_factor_after : F
  product_before : F
  product_after : F
deriving DecidableEq

/-- value carried by a chunk public-input slot. -/
def public_input_value (rec : ChunkRecord) : PITag → F
  | .n_factors => rec.n_factors
  | .remaining_before => rec.remaining_before
  | .remaining_after => rec.remaining_after
  | .first_factor_before => rec.first_factor_before
  | .first_factor_after => rec.first_factor_after
  | .product_before => rec.product_before
  | .product_after => rec.product_after

/-- leading public inputs of a chunk proof, in registration order (the
verifier-data public inputs added by the bootstrap follow these seven). -/
def chunkPIs (rec : ChunkRecord) : List F :=
  public_inputs_vector.map (public_input_value rec)

/-- public record of the final compression proof: the two public inputs the
product circuit re-exposes. -/
structure FinalRecord where
  n_factors : F
  product : F
deriving DecidableEq

/-- compression step (product_circuit_data_constructor, lines 72-117):
verify the embedded chunk proof and register, in this order, its n_factors
and product_after public inputs as the only two public inputs. -/
def compress (rec : ChunkRecord) : FinalRecord :=
  { n_factors := (chunkPIs rec).getD n_factors_public_input_idx 0
    product := (chunkPIs rec).getD product_after_chunk_public_input_idx 0 }

/-- public inputs of a FinalProof, in registration order. -/
def finalPIs (fr : FinalRecord) : List F :=
  [fr.n_factors, fr.product]

/-- leading public inputs of the dummy base proof built by
RecursiveProdCircuitData::prove (lines 140-155): cyclic_base_proof fills the
slots listed in base_case_public_inputs and zeroes the rest. -/
def dummyBasePIs (n_factors first_factor starting_product : F) : List F :=
  (List.range public_inputs_vector.length).map fun i =>
    if i = n_factors_public_input_idx then n_factors
    else if i = remaining_factors_public_input_idx then n_factors
    else if i = product_after_chunk_public_input_idx then starting_product
    else if i = first_factor_after_chunk_public_input_idx then first_factor
    else 0

/-- prefix-product lookup table used by the random_access gate: the targets
of the product subcircuit, zero-padded to 2 * CHUNK_SIZE entries
(dynamic_size_product.rs lines 280-283). -/
def paddedProductSignals (first_factor : F) : List F :=
  let ts := build_prod_subcircuit first_factor CHUNK_SIZE
  ts ++ List.replicate (2 * CHUNK_SIZE - ts.length) 0

/-- detection wire no_more_resursion_needed (line 247): the high part of the
K-boundary decomposition of remaining_factors_before_chunk equals zero. -/
def no_more_recursion_needed (remaining_before : F) : Bool :=
  decide (remaining_before.val / CHUNK_SIZE = 0)

/-- base-case detection wire is_base_case (line 300): the two free signals
n_factors and remaining_factors_before_chunk are equal. -/
def is_base_case (n_factors remaining_before : F) : Bool :=
  decide (n_factors = remaining_before)

/-- wire initial_product_equal_one (line 304). -/
def initial_product_equal_one (product_before : F) : Bool :=
  decide (product_before = 1)

/-- value of the disjunction target created at line 305:
or(not(is_base_case), initial_product_equal_one).  The source drops this
target without asserting it, so no constraint forces it to one. -/
def base_case_product_check (n_factors remaining_before product_before : F) : Bool :=
  (!is_base_case n_factors remaining_before) || initial_product_equal_one product_before

/-- witness generation for one chunk proof, given the values that reach the
four free before-signals (n_factors and first_chunk_factor are set directly
by the prover; remaining_factors_before_chunk and product_before_chunk are
copied from the embedded proof's public inputs through the connect
constraints of lines 424-437).  The two failure points of plonky2 witness
generation are the 32-bit range check / split of remaining_before
(lines 241-246) and the random_access index bound (line 283); everything
else is computed by wire generators.  The disjunction of line 305 is
computed but never asserted, so it cannot fail. -/
def chunkStep (n_factors remaining_before first_factor_before product_before : F) :
    Option ChunkRecord :=
  if remaining_before.val < 2 ^ MAX_N_FACTORS_BITS then
    let remaining_after : F :=
      if no_more_recursion_needed remaining_before then 0
      else remaining_before - (CHUNK_SIZE : F)
    let number_of_chunk_factors : F := remaining_before - remaining_after
    if number_of_chunk_factors.val < 2 * CHUNK_SIZE then
      let chunk_product :=
        (paddedProductSignals first_factor_before).getD number_of_chunk_factors.val 0
      some
        { n_factors := n_factors
          remaining_before := remaining_before
          remaining_after := remaining_after
          first_factor_before := first_factor_before
          first_factor_after := first_factor_before + number_of_chunk_factors
          product_before := product_before
          product_after := product_before * chunk_product }
    else none
  else none

/-- equality constraints imposed between the embedded proof's public inputs
and the enclosing chunk's signals (the connect loop of lines 424-437).
These constraints carry no base-case condition in the source. -/
def chunkLinkage (innerPIs : List F) (rec : ChunkRecord) : Prop :=
  innerPIs.getD (find_public_input_idx public_inputs_vector .remaining_after) 0 =
      rec.remaining_before ∧
  innerPIs.getD (find_public_input_idx public_inputs_vector .first_factor_after) 0 =
      rec.first_factor_before ∧
  innerPIs.getD (find_public_input_idx public_inputs_vector .product_after) 0 =
      rec.product_before ∧
  innerPIs.getD (find_public_input_idx public_inputs_vector .n_factors) 0 =
      rec.n_factors

/-- constraints of the chunk circuit on its public record and on the leading
public inputs of the embedded proof: the range check, the selected
remaining_after, the random_access bound and lookup, the first-factor update,
and the unconditional linkage equalities.  The disjunction of line 305 is
computed but its output target is never constrained to one, so it
contributes no conjunct. -/
def chunkConstraints (innerPIs : List F) (rec : ChunkRecord) : Prop :=
  rec.remaining_before.val < 2 ^ MAX_N_FACTORS_BITS ∧
  rec.remaining_after =
    (if no_more_recursion_needed rec.remaining_before then 0
     else rec.remaining_before - (CHUNK_SIZE : F)) ∧
  (rec.remaining_before - rec.remaining_after).val < 2 * CHUNK_SIZE ∧
  rec.product_after =
    rec.product_before *
      (paddedProductSignals rec.first_factor_before).getD
        (rec.remaining_before - rec.remaining_after).val 0 ∧
  rec.first_factor_after =
    rec.first_factor_before + (rec.remaining_before - rec.remaining_after) ∧
  chunkLinkage innerPIs rec

instance (innerPIs : List F) (rec : ChunkRecord) : Decidable (chunkLinkage innerPIs rec) := by
  unfold chunkLinkage; infer_instance

instance (innerPIs : List F) (rec : ChunkRecord) : Decidable (chunkConstraints innerPIs rec) := by
  unfold chunkConstraints; infer_instance

/-- proving loop of RecursiveProdCircuitData::prove (lines 157-170): while
the newest proof's remaining counter is nonzero, generate a further chunk
proof whose free before-signals are copied from the newest proof's public
inputs.  The Rust loop is a while loop; it is modelled with a fuel
parameter, and the termination theorem shows any fuel above the remaining
counter yields the result. -/
def proveLoop : Nat → ChunkRecord → Option ChunkRecord
  | 0, _ => none
  | fuel + 1, rec =>
    if rec.remaining_after = 0 then some rec
    else
      match chunkStep rec.n_factors rec.remaining_after rec.first_factor_after
          rec.product_after with
      | none => none
      | some rec2 => proveLoop fuel rec2

/-- driver RecursiveProdCircuitData::prove (lines 127-179): build the dummy
base proof carrying the base-case public inputs, generate the base chunk
proof (n_factors and first_chunk_factor set directly, remaining_before and
product_before copied from the dummy proof's public inputs), iterate until
the remaining counter is zero, then compress. -/
def prove (n_factors : Nat) (first_factor starting_product : F) : Option FinalRecord :=
  let basePIs := dummyBasePIs (n_factors : F) first_factor starting_product
  match chunkStep (n_factors : F)
      (basePIs.getD remaining_factors_public_input_idx 0)
      first_factor
      (basePIs.getD product_after_chunk_public_input_idx 0) with
  | none => none
  | some rec0 => (proveLoop (n_factors + 1) rec0).map compress

/-- driver RecursiveProdCircuitData::verify (lines 194-201): delegate to the
compression circuit's verifier, which accepts exactly the honestly generated
compression proofs (the backend is assumed sound and complete); a prove that
failed produced no proof to verify. -/
def verify (proof : Option FinalRecord) : Bool :=
  proof.isSome

/-- kind of recursive-verification logic a bootstrap round embeds. -/
inductive VerifKind where
  | noVerif
  | mockVerif
  | realVerif
deriving DecidableEq

/-- shape of one circuit produced during the bootstrap construction: either
the inner-most placeholder (remaining_bootstrap_steps = 0 branch, lines
323-333, a circuit of virtual public inputs and nothing else), or a chunk
circuit embedding verification logic for an inner shape. -/
inductive CircuitModel where
  | placeholder (numPublicInputs : Nat)
  | chunk (verif : VerifKind) (numPublicInputs : Nat) (inner : CircuitModel)
deriving DecidableEq

/-- verification logic a circuit shape embeds. -/
def CircuitModel.verif : CircuitModel → VerifKind
  | .placeholder _ => .noVerif
  | .chunk v _ _ => v

/-- number of public inputs a circuit shape exposes. -/
def CircuitModel.numPublicInputs : CircuitModel → Nat
  | .placeholder k => k
  | .chunk _ k _ => k

/-- number of nested chunk rounds above the placeholder. -/
def CircuitModel.depth : CircuitModel → Nat
  | .placeholder _ => 0
  | .chunk _ _ inner => inner.depth + 1

/-- inner-most shape of a bootstrap chain. -/
def CircuitModel.innermost : CircuitModel → CircuitModel
  | .placeholder k => .placeholder k
  | .chunk _ _ inner => inner.innermost

/-- number of public inputs the verifier data occupies: the circuit digest
(4 field elements) plus 4 elements per cap entry (source expression
4 + 4 * circuit_config.fri_config.num_cap_elements(), line 326). -/
def num_cyclic_proof_public_inputs (numCapElems : Nat) : Nat :=
  4 + 4 * numCapElems

/-- placeholder built by the remaining_bootstrap_steps = 0 branch (lines
323-333): a fresh builder registering only virtual public inputs, as many as
a real chunk proof carries, with no verification logic. -/
def dummy_bootstrap_circuit (numCapElems : Nat) : CircuitModel :=
  .placeholder
    (num_cyclic_proof_public_inputs numCapElems + public_inputs_vector.length)

/-- structural model of build_recursive_product_circuit (lines 214-459) as a
function of the fri cap-element count and the two bootstrap counters: every
round registers the seven record public inputs followed by the
verifier-data public inputs; the embedded proof shape comes from the
placeholder at depth zero and from the recursive call otherwise; rounds with
remaining_bootstrap_steps different from total_bootstrap_steps embed the
mock verification (lines 345-372), the top round embeds the real cyclic
verification (lines 373-394). -/
def build_recursive_product_circuit (numCapElems total : Nat) : Nat → CircuitModel
  | 0 =>
    .chunk (if total = 0 then .realVerif else .mockVerif)
      (public_inputs_vector.length + num_cyclic_proof_public_inputs numCapElems)
      (dummy_bootstrap_circuit numCapElems)
  | r + 1 =>
    .chunk (if total = r + 1 then .realVerif else .mockVerif)
      (public_inputs_vector.length + num_cyclic_proof_public_inputs numCapElems)
      (build_recursive_product_circuit numCapElems total r)

/-- bootstrap depth fixed by recursive_product_circuit (line 209). -/
def N_BOOTSTRAP_STEPS : Nat := 2

/-- shape of the production circuit built by recursive_product_circuit
(lines 205-212): both counters start at N_BOOTSTRAP_STEPS. -/
def recursive_product_circuit_model (numCapElems : Nat) : CircuitModel :=
  build_recursive_product_circuit numCapElems N_BOOTSTRAP_STEPS N_BOOTSTRAP_STEPS

/-! ### Basic facts about the constants, the field and lists -/

theorem CHUNK_SIZE_eq : CHUNK_SIZE = 32 := by
  norm_num [CHUNK_SIZE, CHUNK_SIZE_LOG]

theorem two_pow_32_lt_P : 2 ^ 32 < P := by
  norm_num [P]

theorem val_natCast_of_lt_range {m : Nat} (h : m < 2 ^ 32) : ((m : F)).val = m :=
  ZMod.val_cast_of_lt (lt_trans h two_pow_32_lt_P)

theorem natCast_val_self (a : F) : ((a.val : Nat) : F) = a :=
  ZMod.natCast_rightInverse a

theorem natCast_ne_zero_of_range {m : Nat} (h0 : m ≠ 0) (h : m < 2 ^ 32) :
    (m : F) ≠ 0 := by
  intro hc
  have hv := (ZMod.val_eq_zero (m : F)).mpr hc
  rw [val_natCast_of_lt_range h] at hv
  exact h0 hv

theorem getD_append_left (l1 l2 : List F) (i : Nat) (h : i < l1.length) (d : F) :
    (l1 ++ l2).getD i d = l1.getD i d := by
  induction l1 generalizing i with
  | nil => simp at h
  | cons x xs ih =>
    cases i with
    | zero => rfl
    | succ j =>
      simp only [List.cons_append, List.getD_cons_succ]
      exact ih j (by simpa using h)

theorem getD_append_at_length (l1 : List F) (x : F) (l2 : List F) (d : F) :
    (l1 ++ x :: l2).getD l1.length d = x := by
  induction l1 with
  | nil => rfl
  | cons y ys ih =>
    simpa only [List.cons_append, List.length_cons, List.getD_cons_succ] using ih

/-! ### The consecutive product and the product subcircuit -/

theorem consecProd_one (b : F) : consecProd b 1 = b := by
  show consecProd b 0 * (b + ((0 : Nat) : F)) = b
  simp [consecProd]

theorem consecProd_succ_left (b : F) (m : Nat) :
    consecProd b (m + 1) = b * consecProd (b + 1) m := by
  induction m with
  | zero => simp [consecProd]
  | succ k ih =>
    show consecProd b (k + 1) * (b + ((k + 1 : Nat) : F)) = _
    rw [ih]
    show _ = b * (consecProd (b + 1) k * ((b + 1) + (k : F)))
    push_cast
    ring

theorem consecProd_add (b : F) (a c : Nat) :
    consecProd b (a + c) = consecProd b a * consecProd (b + (a : F)) c := by
  induction c with
  | zero => simp [consecProd]
  | succ k ih =>
    have h1 : a + (k + 1) = (a + k) + 1 := by omega
    rw [h1]
    show consecProd b (a + k) * (b + ((a + k : Nat) : F)) = _
    rw [ih]
    show _ = consecProd b a * (consecProd (b + (a : F)) k * ((b + (a : F)) + (k : F)))
    push_cast
    ring

theorem consecProd_eq_prod (b : F) (n : Nat) :
    consecProd b n = ∏ i ∈ Finset.range n, (b + (i : F)) := by
  induction n with
  | zero => simp [consecProd]
  | succ k ih =>
    rw [Finset.prod_range_succ, ← ih]
    rfl

theorem prodSubLoop_length (k : Nat) :
    ∀ product next : F, ((prodSubLoop product next k).1).length = k := by
  induction k with
  | zero => intro p nf; rfl
  | succ j ih =>
    intro p nf
    simp only [prodSubLoop, List.length_cons]
    rw [ih]

theorem prodSubLoop_getD (k : Nat) :
    ∀ (product next : F) (i : Nat), i < k →
      ((prodSubLoop product next k).1).getD i 0 = product * consecProd next (i + 1) := by
  induction k with
  | zero => intro _ _ i h; omega
  | succ j ih =>
    intro p nf i hi
    cases i with
    | zero =>
      show p * nf = p * consecProd nf 1
      rw [consecProd_one]
    | succ i2 =>
      show ((prodSubLoop (p * nf) (nf + 1) j).1).getD i2 0 = _
      rw [ih (p * nf) (nf + 1) i2 (by omega)]
      rw [consecProd_succ_left nf (i2 + 1)]
      ring

theorem prodSubLoop_snd (k : Nat) :
    ∀ product next : F,
      (prodSubLoop product next k).2.1 = product * consecProd next k ∧
      (prodSubLoop product next k).2.2 = next + (k : F) := by
  induction k with
  | zero =>
    intro p nf
    constructor
    · show p = p * consecProd nf 0
      simp [consecProd]
    · show nf = nf + ((0 : Nat) : F)
      simp
  | succ j ih =>
    intro p nf
    constructor
    · show (prodSubLoop (p * nf) (nf + 1) j).2.1 = p * consecProd nf (j + 1)
      rw [(ih (p * nf) (nf + 1)).1, consecProd_succ_left]
      ring
    · show (prodSubLoop (p * nf) (nf + 1) j).2.2 = nf + ((j + 1 : Nat) : F)
      rw [(ih (p * nf) (nf + 1)).2]
      push_cast
      ring

theorem build_prod_subcircuit_unfold (b : F) (n : Nat) :
    build_prod_subcircuit b n =
      (1 : F) :: ((prodSubLoop 1 b (n - 1)).1 ++
        [(prodSubLoop 1 b (n - 1)).2.1 * (prodSubLoop 1 b (n - 1)).2.2]) := rfl

theorem build_prod_subcircuit_length (b : F) (n : Nat) (hn : 1 ≤ n) :
    (build_prod_subcircuit b n).length = n + 1 := by
  rw [build_prod_subcircuit_unfold]
  simp [prodSubLoop_length]
  omega

theorem build_prod_subcircuit_getD (b : F) (n : Nat) (hn : 1 ≤ n) :
    ∀ i, i ≤ n → (build_prod_subcircuit b n).getD i 0 = consecProd b i := by
  intro i hi
  rw [build_prod_subcircuit_unfold]
  cases i with
  | zero => rfl
  | succ i2 =>
    simp only [List.getD_cons_succ]
    by_cases hlt : i2 < n - 1
    · rw [getD_append_left _ _ _ (by rw [prodSubLoop_length]; exact hlt)]
      rw [prodSubLoop_getD (n - 1) 1 b i2 hlt, one_mul]
    · have hi2 : i2 = n - 1 := by omega
      subst hi2
      have hlen : ((prodSubLoop 1 b (n - 1)).1).length = n - 1 :=
        prodSubLoop_length (n - 1) 1 b
      have hx := getD_append_at_length ((prodSubLoop 1 b (n - 1)).1)
        ((prodSubLoop 1 b (n - 1)).2.1 * (prodSubLoop 1 b (n - 1)).2.2) [] 0
      rw [hlen] at hx
      rw [hx, (prodSubLoop_snd (n - 1) 1 b).1, (prodSubLoop_snd (n - 1) 1 b).2, one_mul]
      rfl

theorem paddedProductSignals_getD (b : F) (i : Nat) (h : i ≤ CHUNK_SIZE) :
    (paddedProductSignals b).getD i 0 = consecProd b i := by
  have hK : (1 : Nat) ≤ CHUNK_SIZE := by rw [CHUNK_SIZE_eq]; omega
  have hb : paddedProductSignals b =
      build_prod_subcircuit b CHUNK_SIZE ++
        List.replicate (2 * CHUNK_SIZE - (build_prod_subcircuit b CHUNK_SIZE).length) 0 :=
    rfl
  rw [hb, getD_append_left _ _ _
    (by rw [build_prod_subcircuit_length b CHUNK_SIZE hK]; omega)]
  exact build_prod_subcircuit_getD b CHUNK_SIZE hK i h

/-! ### Characterization of one chunk of witness generation -/

theorem chunkStep_eq (nf ffb pb : F) (m : Nat) (hm : m < 2 ^ 32) :
    chunkStep nf (m : F) ffb pb = some
      { n_factors := nf
        remaining_before := (m : F)
        remaining_after := ((m - min m CHUNK_SIZE : Nat) : F)
        first_factor_before := ffb
        first_factor_after := ffb + ((min m CHUNK_SIZE : Nat) : F)
        product_before := pb
        product_after := pb * consecProd ffb (min m CHUNK_SIZE) } := by
  have hK : CHUNK_SIZE = 32 := CHUNK_SIZE_eq
  have hval : ((m : F)).val = m := val_natCast_of_lt_range hm
  have hrange : ((m : F)).val < 2 ^ MAX_N_FACTORS_BITS := by
    rw [hval]
    simpa [MAX_N_FACTORS_BITS] using hm
  unfold chunkStep
  rw [if_pos hrange]
  by_cases hm32 : m < CHUNK_SIZE
  · have hdiv : ((m : F)).val / CHUNK_SIZE = 0 := by
      rw [hval]
      exact Nat.div_eq_of_lt hm32
    have hflag : no_more_recursion_needed (m : F) = true := by
      rw [no_more_recursion_needed, hdiv]
      exact decide_eq_true rfl
    rw [hflag]
    simp only [if_true, sub_zero]
    rw [if_pos (by rw [hval]; omega)]
    have hmin : min m CHUNK_SIZE = m := by omega
    rw [hval, paddedProductSignals_getD ffb m (by omega), hmin]
    simp [Nat.sub_self]
  · have hge : CHUNK_SIZE ≤ m := by omega
    have hdiv : ¬(((m : F)).val / CHUNK_SIZE = 0) := by
      rw [hval]
      have h1 : 1 ≤ m / CHUNK_SIZE := (Nat.one_le_div_iff (by omega)).mpr hge
      omega
    have hflag : no_more_recursion_needed (m : F) = false := by
      rw [no_more_recursion_needed]
      exact decide_eq_false hdiv
    rw [hflag]
    simp only [Bool.false_eq_true, if_false]
    have hsub : (m : F) - (CHUNK_SIZE : F) = ((m - CHUNK_SIZE : Nat) : F) :=
      (Nat.cast_sub hge).symm
    have hcount : (m : F) - ((m - CHUNK_SIZE : Nat) : F) =
        ((CHUNK_SIZE : Nat) : F) := by
      rw [← Nat.cast_sub (by omega)]
      congr 1
      omega
    rw [hsub, hcount]
    rw [if_pos (by rw [val_natCast_of_lt_range (by omega)]; omega)]
    rw [val_natCast_of_lt_range (by omega)]
    rw [paddedProductSignals_getD ffb CHUNK_SIZE (by omega)]
    have hmin : min m CHUNK_SIZE = CHUNK_SIZE := by omega
    rw [hmin]

theorem chunkStep_eq_self (nf rb ffb pb : F) (h : rb.val < 2 ^ 32) :
    chunkStep nf rb ffb pb = some
      { n_factors := nf
        remaining_before := rb
        remaining_after := ((rb.val - min rb.val CHUNK_SIZE : Nat) : F)
        first_factor_before := ffb
        first_factor_after := ffb + ((min rb.val CHUNK_SIZE : Nat) : F)
        product_before := pb
        product_after := pb * consecProd ffb (min rb.val CHUNK_SIZE) } := by
  have h2 := chunkStep_eq nf ffb pb rb.val h
  rw [natCast_val_self] at h2
  exact h2

theorem chunkStep_none_of_out_of_range (nf rb ffb pb : F) (h : ¬rb.val < 2 ^ 32) :
    chunkStep nf rb ffb pb = none := by
  unfold chunkStep
  rw [if_neg (by simpa [MAX_N_FACTORS_BITS] using h)]

/-! ### The proving loop -/

theorem proveLoop_terminates_aux :
    ∀ (fuel m : Nat) (rec : ChunkRecord),
      rec.remaining_after = (m : F) → m < 2 ^ 32 → m < fuel →
      ∃ fr, proveLoop fuel rec = some fr ∧ fr.remaining_after = 0 := by
  intro fuel
  induction fuel with
  | zero => intro m rec _ _ h; omega
  | succ k ih =>
    intro m rec hra hm hfuel
    by_cases hm0 : m = 0
    · subst hm0
      rw [Nat.cast_zero] at hra
      refine ⟨rec, ?_, hra⟩
      show (if rec.remaining_after = 0 then some rec else _) = some rec
      rw [if_pos hra]
    · have hne : rec.remaining_after ≠ 0 := by
        rw [hra]
        exact natCast_ne_zero_of_range hm0 hm
      have hstep := chunkStep_eq rec.n_factors rec.first_factor_after
        rec.product_after m hm
      have hK : CHUNK_SIZE = 32 := CHUNK_SIZE_eq
      obtain ⟨fr, hloop, hfr⟩ := ih (m - min m CHUNK_SIZE)
        { n_factors := rec.n_factors
          remaining_before := (m : F)
          remaining_after := ((m - min m CHUNK_SIZE : Nat) : F)
          first_factor_before := rec.first_factor_after
          first_factor_after := rec.first_factor_after + ((min m CHUNK_SIZE : Nat) : F)
          product_before := rec.product_after
          product_after := rec.product_after *
            consecProd rec.first_factor_after (min m CHUNK_SIZE) }
        rfl (by omega) (by omega)
      refine ⟨fr, ?_, hfr⟩
      show (if rec.remaining_after = 0 then some rec
        else match chunkStep rec.n_factors rec.remaining_after rec.first_factor_after
            rec.product_after with
          | none => none
          | some rec2 => proveLoop k rec2) = some fr
      rw [if_neg hne, hra, hstep]
      exact hloop

theorem proveLoop_spec :
    ∀ (fuel n m : Nat) (f p0 : F) (rec : ChunkRecord),
      n < 2 ^ 32 → m ≤ n → m < fuel →
      rec.n_factors = (n : F) →
      rec.remaining_after = (m : F) →
      rec.first_factor_after = f + ((n - m : Nat) : F) →
      rec.product_after = p0 * consecProd f (n - m) →
      ∃ fr, proveLoop fuel rec = some fr ∧
        fr.n_factors = (n : F) ∧ fr.remaining_after = 0 ∧
        fr.product_after = p0 * consecProd f n := by
  intro fuel
  induction fuel with
  | zero => intro n m f p0 rec _ _ h; omega
  | succ k ih =>
    intro n m f p0 rec hn hmn hfuel h1 h2 h3 h4
    by_cases hm0 : m = 0
    · subst hm0
      rw [Nat.cast_zero] at h2
      refine ⟨rec, ?_, h1, h2, by rw [h4, Nat.sub_zero]⟩
      show (if rec.remaining_after = 0 then some rec else _) = some rec
      rw [if_pos h2]
    · have hm : m < 2 ^ 32 := lt_of_le_of_lt hmn hn
      have hne : rec.remaining_after ≠ 0 := by
        rw [h2]
        exact natCast_ne_zero_of_range hm0 hm
      have hstep := chunkStep_eq rec.n_factors rec.first_factor_after
        rec.product_after m hm
      have hK : CHUNK_SIZE = 32 := CHUNK_SIZE_eq
      have harith : (n - m) + min m CHUNK_SIZE = n - (m - min m CHUNK_SIZE) := by
        omega
      have hffa : rec.first_factor_after + ((min m CHUNK_SIZE : Nat) : F) =
          f + ((n - (m - min m CHUNK_SIZE) : Nat) : F) := by
        rw [h3, add_assoc, ← Nat.cast_add, harith]
      have hpa : rec.product_after * consecProd rec.first_factor_after
          (min m CHUNK_SIZE) = p0 * consecProd f (n - (m - min m CHUNK_SIZE)) := by
        rw [h4, h3, ← harith, consecProd_add]
        ring
      obtain ⟨fr, hloop, hfr1, hfr2, hfr3⟩ :=
        ih n (m - min m CHUNK_SIZE) f p0
          { n_factors := rec.n_factors
            remaining_before := (m : F)
            remaining_after := ((m - min m CHUNK_SIZE : Nat) : F)
            first_factor_before := rec.first_factor_after
            first_factor_after := rec.first_factor_after + ((min m CHUNK_SIZE : Nat) : F)
            product_before := rec.product_after
            product_after := rec.product_after *
              consecProd rec.first_factor_after (min m CHUNK_SIZE) }
          hn (by omega) (by omega) h1 rfl hffa hpa
      refine ⟨fr, ?_, hfr1, hfr2, hfr3⟩
      show (if rec.remaining_after = 0 then some rec
        else match chunkStep rec.n_factors rec.remaining_after rec.first_factor_after
            rec.product_after with
          | none => none
          | some rec2 => proveLoop k rec2) = some fr
      rw [if_neg hne, h2, hstep]
      exact hloop

/-! ### The driver -/

theorem dummyBasePIs_eq (a b c : F) : dummyBasePIs a b c = [a, 0, a, 0, b, 0, c] := rfl

theorem compress_eq (rec : ChunkRecord) :
    compress rec = { n_factors := rec.n_factors, product := rec.product_after } := rfl

theorem prove_unfold (n : Nat) (f p0 : F) :
    prove n f p0 =
      match chunkStep (n : F) (n : F) f p0 with
      | none => none
      | some rec0 => (proveLoop (n + 1) rec0).map compress := rfl

/-! ### Bootstrap structure -/

theorem bootstrap_depth (cap total : Nat) :
    ∀ r, (build_recursive_product_circuit cap total r).depth = r + 1 := by
  intro r
  induction r with
  | zero => rfl
  | succ k ih =>
    show (build_recursive_product_circuit cap total k).depth + 1 = k + 1 + 1
    rw [ih]

theorem bootstrap_innermost (cap total : Nat) :
    ∀ r, (build_recursive_product_circuit cap total r).innermost =
      dummy_bootstrap_circuit cap := by
  intro r
  induction r with
  | zero => rfl
  | succ k ih => exact ih

theorem bootstrap_verif (cap total r : Nat) :
    (build_recursive_product_circuit cap total r).verif =
      (if total = r then VerifKind.realVerif else VerifKind.mockVerif) := by
  cases r with
  | zero => rfl
  | succ k => rfl

theorem bootstrap_numPI (cap total r : Nat) :
    (build_recursive_product_circuit cap total r).numPublicInputs =
      public_inputs_vector.length + num_cyclic_proof_public_inputs cap := by
  cases r with
  | zero => rfl
  | succ k => rfl

/-! ### Claim theorems -/

/-- C1: the disjunction or(not(is_base_case), product_before == 1) created at
dynamic_size_product.rs line 305 is dropped without being asserted, so a
forged base case (remaining_before == n_factors with product_before != 1) is
accepted: at n_factors = 5, remaining_before = 5, first_factor = 3,
product_before = 2, the base-case flag is set and the disjunction target is
false, yet chunk witness generation succeeds, every constraint the builder
actually emits is satisfied, and even the full prove/verify pipeline accepts
the forged starting product -- contrary to the specified assertion. -/
theorem forged_base_case_accepted :
    is_base_case 5 5 = true ∧
    initial_product_equal_one 2 = false ∧
    base_case_product_check 5 5 2 = false ∧
    chunkStep 5 5 3 2 = some ⟨5, 5, 0, 3, 8, 2, 5040⟩ ∧
    chunkConstraints (dummyBasePIs 5 3 2) ⟨5, 5, 0, 3, 8, 2, 5040⟩ ∧
    prove 5 3 2 = some ⟨5, 5040⟩ ∧
    verify (prove 5 3 2) = true := by
  decide

/-- C2 (amended): for every n below the 32-bit range-check bound and every
field element f, prove(n, f, 1) succeeds and the FinalProof exposes
n_factors = n and product = f * (f+1) * ... * (f+n-1), and verification of
the produced proof succeeds.  (As stated over all non-negative n the claim
fails: the 32-bit range check makes proof generation fail from n = 2^32 on,
see the counterexample.) -/
theorem prove_verify_correct (n : Nat) (f : F) (hn : n < 2 ^ 32) :
    prove n f 1 = some
      { n_factors := (n : F)
        product := (∏ i ∈ Finset.range n, (f + (i : F))) } ∧
    verify (prove n f 1) = true := by
  have hK : CHUNK_SIZE = 32 := CHUNK_SIZE_eq
  have hstep := chunkStep_eq (n : F) f 1 n hn
  have hmin_le : n - (n - min n CHUNK_SIZE) = min n CHUNK_SIZE := by omega
  obtain ⟨fr, hloop, hfr1, hfr2, hfr3⟩ :=
    proveLoop_spec (n + 1) n (n - min n CHUNK_SIZE) f 1
      { n_factors := (n : F)
        remaining_before := (n : F)
        remaining_after := ((n - min n CHUNK_SIZE : Nat) : F)
        first_factor_before := f
        first_factor_after := f + ((min n CHUNK_SIZE : Nat) : F)
        product_before := 1
        product_after := 1 * consecProd f (min n CHUNK_SIZE) }
      hn (by omega) (by omega) rfl rfl (by rw [hmin_le]) (by rw [hmin_le])
  have hmain : prove n f 1 = some
      { n_factors := (n : F)
        product := (∏ i ∈ Finset.range n, (f + (i : F))) } := by
    rw [prove_unfold, hstep]
    show (proveLoop (n + 1)
      { n_factors := (n : F)
        remaining_before := (n : F)
        remaining_after := ((n - min n CHUNK_SIZE : Nat) : F)
        first_factor_before := f
        first_factor_after := f + ((min n CHUNK_SIZE : Nat) : F)
        product_before := 1
        product_after := 1 * consecProd f (min n CHUNK_SIZE) }).map compress = _
    rw [hloop]
    show some (compress fr) = _
    rw [compress_eq, hfr1, hfr3, one_mul, consecProd_eq_prod]
  exact ⟨hmain, by rw [verify, hmain]; rfl⟩

/-- C2 counterexample to the unamended claim: at n = 2^32 (and f = 1) the
range check of the chunk circuit is unsatisfiable, proof generation fails,
and there is no proof whose verification could succeed. -/
theorem prove_out_of_range_fails :
    prove (2 ^ 32) 1 1 = none ∧ verify (prove (2 ^ 32) 1 1) = false := by
  decide

/-- C2 witness: prove(5, 3, 1) yields the final record (5, 2520) and
verification succeeds. -/
theorem prove_verify_correct_witness :
    prove 5 3 1 = some { n_factors := (5 : F), product := (2520 : F) } ∧
    verify (prove 5 3 1) = true := by
  constructor
  · rw [(prove_verify_correct 5 3 (by norm_num)).1]
    decide
  · exact (prove_verify_correct 5 3 (by norm_num)).2

/-- C3: the linkage constraints of dynamic_size_product.rs lines 424-437 tie
the current record's before state to the embedded proof's after state: in
particular for every non-base-case record satisfying the chunk constraints,
the embedded public inputs at the remaining_after, first_factor_after,
product_after and n_factors positions equal the current remaining_before,
first_factor_before, product_before and n_factors; and in the proving loop
each new chunk record's before state is exactly the previous record's after
state. -/
theorem chunk_before_state_linked (innerPIs : List F) (prev rec : ChunkRecord) :
    (chunkConstraints innerPIs rec → rec.n_factors ≠ rec.remaining_before →
      chunkLinkage innerPIs rec) ∧
    (chunkStep prev.n_factors prev.remaining_after prev.first_factor_after
        prev.product_after = some rec →
      rec.remaining_before = prev.remaining_after ∧
      rec.first_factor_before = prev.first_factor_after ∧
      rec.product_before = prev.product_after ∧
      rec.n_factors = prev.n_factors) := by
  constructor
  · intro h _
    exact h.2.2.2.2.2
  · intro h
    by_cases hr : prev.remaining_after.val < 2 ^ 32
    · rw [chunkStep_eq_self prev.n_factors prev.remaining_after
        prev.first_factor_after prev.product_after hr] at h
      injection h with h2
      subst h2
      exact ⟨rfl, rfl, rfl, rfl⟩
    · rw [chunkStep_none_of_out_of_range prev.n_factors prev.remaining_after
        prev.first_factor_after prev.product_after hr] at h
      exact Option.noConfusion h

/-- C3 witness: a concrete non-base-case chunk (n_factors = 7,
remaining_before = 5) satisfying the constraints against the public inputs
of its predecessor record (7, 9, 5, 1, 2, 4, 9), and the loop-step equalities
for the record produced by chunkStep from that predecessor. -/
theorem chunk_before_state_linked_witness :
    chunkLinkage (chunkPIs ⟨7, 9, 5, 1, 2, 4, 9⟩) ⟨7, 5, 0, 2, 7, 9, 6480⟩ ∧
    (⟨7, 5, 0, 2, 7, 9, 6480⟩ : ChunkRecord).remaining_before =
      (⟨7, 9, 5, 1, 2, 4, 9⟩ : ChunkRecord).remaining_after := by
  have h := chunk_before_state_linked (chunkPIs ⟨7, 9, 5, 1, 2, 4, 9⟩)
    ⟨7, 9, 5, 1, 2, 4, 9⟩ ⟨7, 5, 0, 2, 7, 9, 6480⟩
  exact ⟨h.1 (by decide) (by decide), (h.2 (by decide)).1⟩

/-- C4: for every remaining_before passing the 32-bit range check, chunk
witness generation succeeds and the produced record has
chunk_count = remaining_before - remaining_after = min(remaining_before, K),
remaining_after = remaining_before - chunk_count (so zero whenever
remaining_before <= K and remaining_before - K otherwise), and the
no-more-recursion flag is set exactly when the high part of the K-boundary
decomposition of remaining_before is zero, i.e. when remaining_before < K. -/
theorem chunk_count_is_min (nf rb ffb pb : F)
    (h : rb.val < 2 ^ MAX_N_FACTORS_BITS) :
    ∃ rec, chunkStep nf rb ffb pb = some rec ∧
      rec.remaining_before - rec.remaining_after =
        ((min rb.val CHUNK_SIZE : Nat) : F) ∧
      rec.remaining_after = ((rb.val - min rb.val CHUNK_SIZE : Nat) : F) ∧
      (rb.val ≤ CHUNK_SIZE → rec.remaining_after = 0) ∧
      (CHUNK_SIZE < rb.val →
        rec.remaining_after = ((rb.val - CHUNK_SIZE : Nat) : F)) ∧
      (no_more_recursion_needed rb = true ↔ rb.val < CHUNK_SIZE) := by
  have hK : CHUNK_SIZE = 32 := CHUNK_SIZE_eq
  have h32 : rb.val < 2 ^ 32 := by simpa [MAX_N_FACTORS_BITS] using h
  refine ⟨_, chunkStep_eq_self nf rb ffb pb h32, ?_, rfl, ?_, ?_, ?_⟩
  · show rb - ((rb.val - min rb.val CHUNK_SIZE : Nat) : F) =
      ((min rb.val CHUNK_SIZE : Nat) : F)
    calc rb - ((rb.val - min rb.val CHUNK_SIZE : Nat) : F)
        = ((rb.val : Nat) : F) - ((rb.val - min rb.val CHUNK_SIZE : Nat) : F) := by
          rw [natCast_val_self]
      _ = ((rb.val - (rb.val - min rb.val CHUNK_SIZE) : Nat) : F) :=
          (Nat.cast_sub (by omega)).symm
      _ = ((min rb.val CHUNK_SIZE : Nat) : F) := by congr 1; omega
  · intro hle
    show ((rb.val - min rb.val CHUNK_SIZE : Nat) : F) = 0
    have hz : rb.val - min rb.val CHUNK_SIZE = 0 := by omega
    rw [hz, Nat.cast_zero]
  · intro hgt
    show ((rb.val - min rb.val CHUNK_SIZE : Nat) : F) =
      ((rb.val - CHUNK_SIZE : Nat) : F)
    congr 1
    omega
  · rw [no_more_recursion_needed, hK]
    simp only [decide_eq_true_eq]
    omega

/-- C4 witness: a concrete remaining_before of 40 (above one chunk), with
the record produced by chunkStep. -/
theorem chunk_count_is_min_witness :
    ∃ rec, chunkStep (1 : F) 40 2 3 = some rec ∧
      rec.remaining_before - rec.remaining_after =
        ((min (40 : F).val CHUNK_SIZE : Nat) : F) ∧
      rec.remaining_after =
        (((40 : F).val - min (40 : F).val CHUNK_SIZE : Nat) : F) ∧
      ((40 : F).val ≤ CHUNK_SIZE → rec.remaining_after = 0) ∧
      (CHUNK_SIZE < (40 : F).val →
        rec.remaining_after = (((40 : F).val - CHUNK_SIZE : Nat) : F)) ∧
      (no_more_recursion_needed (40 : F) = true ↔ (40 : F).val < CHUNK_SIZE) :=
  chunk_count_is_min 1 40 2 3 (by decide)

/-- C5: for a base value b and a chunk size K >= 1, the product subcircuit
produces exactly K+1 prefix-product signals with P(0) = 1 and
P(i+1) = P(i) * (b+i) for every i < K. -/
theorem prod_subcircuit_signals (b : F) (K : Nat) (hK : 1 ≤ K) :
    (build_prod_subcircuit b K).length = K + 1 ∧
    (build_prod_subcircuit b K).getD 0 0 = 1 ∧
    ∀ i, i < K → (build_prod_subcircuit b K).getD (i + 1) 0 =
      (build_prod_subcircuit b K).getD i 0 * (b + (i : F)) := by
  refine ⟨build_prod_subcircuit_length b K hK, ?_, ?_⟩
  · rw [build_prod_subcircuit_getD b K hK 0 (by omega)]
    rfl
  · intro i hi
    rw [build_prod_subcircuit_getD b K hK (i + 1) (by omega),
      build_prod_subcircuit_getD b K hK i (by omega)]
    rfl

/-- C5 witness: base value 2 with chunk size 3. -/
theorem prod_subcircuit_signals_witness :
    (build_prod_subcircuit (2 : F) 3).length = 4 ∧
    (build_prod_subcircuit (2 : F) 3).getD 0 0 = 1 ∧
    (build_prod_subcircuit (2 : F) 3).getD 2 0 =
      (build_prod_subcircuit (2 : F) 3).getD 1 0 * (2 + ((1 : Nat) : F)) := by
  have h := prod_subcircuit_signals 2 3 (by norm_num)
  exact ⟨h.1, h.2.1, h.2.2 1 (by norm_num)⟩

/-- C6: the chunk public inputs begin, in this order, with n_factors,
remaining_before, remaining_after, first_factor_before, first_factor_after,
product_before, product_after (positions 0, 2, 4, 6 being the ones the
driver reads), and the FinalProof public inputs are exactly n_factors then
product. -/
theorem public_input_order (rec : ChunkRecord) :
    chunkPIs rec = [rec.n_factors, rec.remaining_before, rec.remaining_after,
      rec.first_factor_before, rec.first_factor_after, rec.product_before,
      rec.product_after] ∧
    finalPIs (compress rec) = [rec.n_factors, rec.product_after] ∧
    n_factors_public_input_idx = 0 ∧
    remaining_factors_public_input_idx = 2 ∧
    first_factor_after_chunk_public_input_idx = 4 ∧
    product_after_chunk_public_input_idx = 6 :=
  ⟨rfl, rfl, rfl, rfl, rfl, rfl⟩

/-- C7: the driving loop terminates: every successful chunk step decreases
the remaining counter by min(remaining, K) (hence strictly while it is
nonzero), and for any record whose remaining counter is a field-encoded
integer below the range-check bound, any fuel above that counter makes the
loop return a final record whose remaining counter is zero -- the loop stops
exactly at the first record with remaining_after = 0, which prove then feeds
once to the compression step. -/
theorem proving_loop_terminates :
    (∀ (nf rb ffb pb : F) (rec2 : ChunkRecord),
      chunkStep nf rb ffb pb = some rec2 →
      rec2.remaining_after.val = rb.val - min rb.val CHUNK_SIZE ∧
      (rb ≠ 0 → rec2.remaining_after.val < rb.val)) ∧
    (∀ (fuel m : Nat) (rec : ChunkRecord),
      rec.remaining_after = (m : F) → m < 2 ^ 32 → m < fuel →
      ∃ fr, proveLoop fuel rec = some fr ∧ fr.remaining_after = 0) := by
  constructor
  · intro nf rb ffb pb rec2 h
    by_cases hr : rb.val < 2 ^ 32
    · rw [chunkStep_eq_self nf rb ffb pb hr] at h
      injection h with h2
      subst h2
      have hK : CHUNK_SIZE = 32 := CHUNK_SIZE_eq
      constructor
      · show ((rb.val - min rb.val CHUNK_SIZE : Nat) : F).val =
          rb.val - min rb.val CHUNK_SIZE
        exact val_natCast_of_lt_range (by omega)
      · intro hrb0
        have hv : rb.val ≠ 0 := by
          intro hz
          exact hrb0 (by rw [← natCast_val_self rb, hz, Nat.cast_zero])
        show ((rb.val - min rb.val CHUNK_SIZE : Nat) : F).val < rb.val
        rw [val_natCast_of_lt_range (by omega)]
        omega
    · rw [chunkStep_none_of_out_of_range nf rb ffb pb hr] at h
      exact Option.noConfusion h
  · exact proveLoop_terminates_aux

/-- C7 witness: the decrease equality at a concrete chunk step with
remaining_before = 5, and loop termination from a concrete record with
remaining counter 3 and fuel 4. -/
theorem proving_loop_terminates_witness :
    (⟨5, 5, 0, 3, 8, 2, 5040⟩ : ChunkRecord).remaining_after.val =
      (5 : F).val - min (5 : F).val CHUNK_SIZE ∧
    (∃ fr, proveLoop 4 (⟨9, 3, 3, 1, 4, 1, 6⟩ : ChunkRecord) = some fr ∧
      fr.remaining_after = 0) := by
  constructor
  · exact (proving_loop_terminates.1 5 5 3 2 ⟨5, 5, 0, 3, 8, 2, 5040⟩ (by decide)).1
  · exact proving_loop_terminates.2 4 3 ⟨9, 3, 3, 1, 4, 1, 6⟩ (by decide)
      (by norm_num) (by norm_num)

/-- C8: the bootstrap builder recurses on remaining_bootstrap_steps, each
call decreasing it by one, and terminates for every depth with exactly r+1
nested rounds above the placeholder; the innermost embedded shape is the
placeholder, which carries no verification logic and exposes as many public
inputs as every real round; a round embeds the real self-checking cyclic
verification exactly when its remaining depth equals the total depth, and
mock verification otherwise; the production circuit (both counters at
N_BOOTSTRAP_STEPS) is a real-verification round. -/
theorem bootstrap_structure (numCapElems total r : Nat) :
    (build_recursive_product_circuit numCapElems total r).depth = r + 1 ∧
    (build_recursive_product_circuit numCapElems total r).innermost =
      dummy_bootstrap_circuit numCapElems ∧
    (dummy_bootstrap_circuit numCapElems).verif = VerifKind.noVerif ∧
    (dummy_bootstrap_circuit numCapElems).numPublicInputs =
      (build_recursive_product_circuit numCapElems total r).numPublicInputs ∧
    (build_recursive_product_circuit numCapElems total r).verif =
      (if total = r then VerifKind.realVerif else VerifKind.mockVerif) ∧
    (recursive_product_circuit_model numCapElems).verif = VerifKind.realVerif := by
  refine ⟨bootstrap_depth numCapElems total r, bootstrap_innermost numCapElems total r,
    rfl, ?_, bootstrap_verif numCapElems total r, rfl⟩
  rw [bootstrap_numPI]
  show num_cyclic_proof_public_inputs numCapElems + public_inputs_vector.length = _
  omega

/-- C9: a base case with n_factors = 0 (so remaining_before = 0) selects
chunk_count = min(0, K) = 0 and leaves the product unchanged: the chunk
record multiplies the starting product by the prefix product P(0) = 1, and
the whole driver returns the starting product as the final product. -/
theorem zero_factors_base_case (f p0 : F) :
    chunkStep 0 0 f p0 = some
      { n_factors := 0
        remaining_before := 0
        remaining_after := 0
        first_factor_before := f
        first_factor_after := f
        product_before := p0
        product_after := p0 } ∧
    prove 0 f p0 = some { n_factors := 0, product := p0 } := by
  have h0 := chunkStep_eq (0 : F) f p0 0 (by norm_num)
  have hmin : min 0 CHUNK_SIZE = 0 := by omega
  rw [hmin] at h0
  simp only [Nat.sub_self, Nat.cast_zero, add_zero, consecProd, mul_one] at h0
  refine ⟨h0, ?_⟩
  rw [prove_unfold 0 f p0, Nat.cast_zero, h0]
  show (proveLoop (0 + 1)
    { n_factors := 0
      remaining_before := 0
      remaining_after := 0
      first_factor_before := f
      first_factor_after := f
      product_before := p0
      product_after := p0 }).map compress = some { n_factors := 0, product := p0 }
  have hl : proveLoop 1
      { n_factors := 0
        remaining_before := 0
        remaining_after := 0
        first_factor_before := f
        first_factor_after := f
        product_before := p0
        product_after := p0 } = some
      { n_factors := 0
        remaining_before := 0
        remaining_after := 0
        first_factor_before := f
        first_factor_after := f
        product_before := p0
        product_after := p0 } := by
    show (if (0 : F) = 0 then _ else _) = _
    rw [if_pos rfl]
  show (proveLoop 1 _).map compress = _
  rw [hl]
  rfl

/-- C10: the linkage equalities between the embedded proof's after-state
public inputs and the current proof's before-state signals are imposed by
the chunk constraints unconditionally -- with no base-case guard -- and the
dummy base proof the driver builds carries exactly the four values
(n_factors at the remaining_after slot, first_factor at the
first_factor_after slot, starting_product at the product_after slot, and
n_factors at the n_factors slot) that satisfy them for the base record. -/
theorem linkage_unconditional :
    (∀ (innerPIs : List F) (rec : ChunkRecord),
      chunkConstraints innerPIs rec → chunkLinkage innerPIs rec) ∧
    (∀ a b c : F,
      (dummyBasePIs a b c).getD remaining_factors_public_input_idx 0 = a ∧
      (dummyBasePIs a b c).getD first_factor_after_chunk_public_input_idx 0 = b ∧
      (dummyBasePIs a b c).getD product_after_chunk_public_input_idx 0 = c ∧
      (dummyBasePIs a b c).getD n_factors_public_input_idx 0 = a) := by
  constructor
  · intro innerPIs rec h
    exact h.2.2.2.2.2
  · intro a b c
    exact ⟨rfl, rfl, rfl, rfl⟩

/-- C10 witness: a concrete base-case chunk record (n_factors =
remaining_before = 5) satisfying the constraints against the driver's dummy
base public inputs, whose linkage equalities therefore hold, together with
the dummy public-input slot values at the four linkage positions. -/
theorem linkage_unconditional_witness :
    chunkLinkage (dummyBasePIs 5 3 2) ⟨5, 5, 0, 3, 8, 2, 5040⟩ ∧
    (dummyBasePIs (5 : F) 3 2).getD remaining_factors_public_input_idx 0 = 5 := by
  exact ⟨linkage_unconditional.1 (dummyBasePIs 5 3 2) ⟨5, 5, 0, 3, 8, 2, 5040⟩
    (by decide), (linkage_unconditional.2 5 3 2).1⟩

end RecursiveProd
